import Mathlib

/-!
A shallow embedding of the memoization caches in
crates/rustc-utils/src/cache.rs and of their use by the borrow-check
facts bridge in crates/rustc_utils/src/mir/borrowck_facts.rs.

The RefCell around each map is modelled by runtime borrow flags stored in
the cache state; a conflicting borrow produces Fault.borrowConflict, the
model of the RefCell panic. Each pinned box is modelled by a slot
identifier drawn from an allocation counter, so reference identity and
address stability become equality of slot identifiers. Compute closures
are modelled as state transformers so that re-entrant calls into the same
cache can be expressed. The hash map is modelled as an association list;
HashMap insert replaces an existing entry for the same key.
-/

namespace RustcUtils

/-- Faults the Rust code can raise at runtime: a RefCell borrow conflict
(borrow or borrow_mut panicking), Option unwrap on None, and an explicit
panic carrying its message. -/
inductive Fault where
  | borrowConflict : Fault
  | unwrapNone : Fault
  | panicked : String → Fault
deriving DecidableEq

/-- Map lookup, modelling HashMap contains_key and get on an association
list. -/
def lookupEntry {In V : Type} [DecidableEq In] : List (In × V) → In → Option V
  | [], _ => none
  | (k, v) :: rest, key => if k = key then some v else lookupEntry rest key

/-- Map insertion, modelling HashMap insert: replaces the entry for an
existing key, otherwise appends a new entry. -/
def insertEntry {In V : Type} [DecidableEq In] : List (In × V) → In → V → List (In × V)
  | [], key, v => [(key, v)]
  | (k, w) :: rest, key, v =>
    if k = key then (key, v) :: rest else (k, w) :: insertEntry rest key v

/-- State of a Cache of non-copyable values (cache.rs line 8):
RefCell with HashMap from In to pinned boxed Out. Each stored value is
paired with the slot identifier of its pinned box; nextSlot is the
allocation counter handing out fresh slots. reads and mutActive are the
RefCell borrow flags. -/
structure Cache (In Out : Type) where
  entries : List (In × Nat × Out)
  nextSlot : Nat
  reads : Nat
  mutActive : Bool
deriving DecidableEq

/-- A fresh Cache, as produced by Cache default. -/
def Cache.empty {In Out : Type} : Cache In Out := ⟨[], 0, 0, false⟩

/-- Insertion of a freshly allocated pinned slot holding out under key,
as done by Box pin plus HashMap insert in Cache get. -/
def Cache.insertFresh {In Out : Type} [DecidableEq In] (c : Cache In Out)
    (key : In) (out : Out) : Cache In Out :=
  { c with entries := insertEntry c.entries key (c.nextSlot, out),
           nextSlot := c.nextSlot + 1 }

/-- A compute closure for Cache get. It receives the key and the cache
state (so that re-entrant calls into the same cache can be modelled) and
either produces a value and a successor state or raises a fault. -/
abbrev ComputeM (In Out : Type) := In → Cache In Out → Except Fault (Out × Cache In Out)

/-- A compute closure that is a pure function of the key, touching no
cache: the shape of every ordinary closure passed to get. -/
def pureCompute {In Out : Type} (f : In → Out) : ComputeM In Out :=
  fun k c => .ok (f k, c)

/-- Lines 17 to 20 of cache.rs: if the key is absent, run compute (with
no borrow of the RefCell held), then acquire a transient write borrow and
insert a freshly pinned slot. borrow_mut panics if any borrow is active
at that moment. -/
def Cache.checkInsert {In Out : Type} [DecidableEq In] (key : In)
    (compute : ComputeM In Out) (c : Cache In Out) : Except Fault (Cache In Out) :=
  if (lookupEntry c.entries key).isNone then
    match compute key c with
    | .error f => .error f
    | .ok (out, c1) =>
      if c1.mutActive ∨ c1.reads ≠ 0 then .error .borrowConflict
      else .ok (c1.insertFresh key out)
  else .ok c

/-- Cache get, cache.rs lines 16 to 30. The presence check takes a
transient shared borrow (it panics only if a write borrow is active and
is released before the branch body runs); after the conditional insert, a
final shared borrow looks the entry up, unwraps it, and returns the slot
identifier and the stored value. -/
def Cache.get {In Out : Type} [DecidableEq In] (key : In)
    (compute : ComputeM In Out) (c : Cache In Out) :
    Except Fault ((Nat × Out) × Cache In Out) :=
  if c.mutActive then .error .borrowConflict
  else
    match Cache.checkInsert key compute c with
    | .error f => .error f
    | .ok c2 =>
      if c2.mutActive then .error .borrowConflict
      else
        match lookupEntry c2.entries key with
        | some entry => .ok (entry, c2)
        | none => .error .unwrapNone

/-- Run a sequence of get calls, each with a pure compute closure,
threading the cache state and propagating any fault. -/
def Cache.runOps {In Out : Type} [DecidableEq In] :
    List (In × (In → Out)) → Cache In Out → Except Fault (Cache In Out)
  | [], c => .ok c
  | (k, f) :: rest, c =>
    match Cache.get k (pureCompute f) c with
    | .error fa => .error fa
    | .ok (_, c1) => Cache.runOps rest c1

/-- Number of invocations of the compute closures supplied for a given
key along a sequence of get calls with pure compute closures. In Cache
get the compute closure runs exactly when the initial presence check
succeeds (no write borrow active) and the key is absent, so each step
counts one invocation under exactly that condition. -/
def Cache.invocations {In Out : Type} [DecidableEq In] (key : In) :
    List (In × (In → Out)) → Cache In Out → Nat
  | [], _ => 0
  | (k, f) :: rest, c =>
    (if k = key ∧ c.mutActive = false ∧ (lookupEntry c.entries k).isNone = true then 1 else 0) +
      match Cache.get k (pureCompute f) c with
      | .error _ => 0
      | .ok (_, c1) => Cache.invocations key rest c1

/-- State of a CopyCache (cache.rs line 39): RefCell with HashMap from In
to Out, values stored inline. mutActive is the RefCell write borrow
flag; CopyCache never takes shared borrows. -/
structure CopyCache (In Out : Type) where
  entries : List (In × Out)
  mutActive : Bool
deriving DecidableEq

/-- A fresh CopyCache, as produced by CopyCache default. -/
def CopyCache.empty {In Out : Type} : CopyCache In Out := ⟨[], false⟩

/-- Insertion of a value under a key in a CopyCache. -/
def CopyCache.insertVal {In Out : Type} [DecidableEq In] (c : CopyCache In Out)
    (key : In) (v : Out) : CopyCache In Out :=
  { c with entries := insertEntry c.entries key v }

/-- A compute closure for CopyCache get. -/
abbrev CopyComputeM (In Out : Type) :=
  In → CopyCache In Out → Except Fault (Out × CopyCache In Out)

/-- A pure compute closure for CopyCache get. -/
def pureComputeC {In Out : Type} (f : In → Out) : CopyComputeM In Out :=
  fun k c => .ok (f k, c)

/-- CopyCache get, cache.rs lines 49 to 54. borrow_mut is acquired at
entry and held for the whole call, so the entry check, the run of the
compute closure inside or_insert_with, and the insertion all happen with
the write borrow active; it is released only when get returns. -/
def CopyCache.get {In Out : Type} [DecidableEq In] (key : In)
    (compute : CopyComputeM In Out) (c : CopyCache In Out) :
    Except Fault (Out × CopyCache In Out) :=
  if c.mutActive then .error .borrowConflict
  else
    match lookupEntry c.entries key with
    | some v => .ok (v, c)
    | none =>
      match compute key { c with mutActive := true } with
      | .error f => .error f
      | .ok (out, c1) =>
        .ok (out, { c1 with entries := insertEntry c1.entries key out,
                            mutActive := false })

/-- Run a sequence of CopyCache get calls with pure compute closures. -/
def CopyCache.runOps {In Out : Type} [DecidableEq In] :
    List (In × (In → Out)) → CopyCache In Out → Except Fault (CopyCache In Out)
  | [], c => .ok c
  | (k, f) :: rest, c =>
    match CopyCache.get k (pureComputeC f) c with
    | .error fa => .error fa
    | .ok (_, c1) => CopyCache.runOps rest c1

/-- Number of invocations of the compute closures supplied for a given
key along a sequence of CopyCache get calls with pure compute closures.
In CopyCache get the compute closure runs exactly when borrow_mut
succeeds (no write borrow already active) and the key is absent. -/
def CopyCache.invocations {In Out : Type} [DecidableEq In] (key : In) :
    List (In × (In → Out)) → CopyCache In Out → Nat
  | [], _ => 0
  | (k, f) :: rest, c =>
    (if k = key ∧ c.mutActive = false ∧ (lookupEntry c.entries k).isNone = true then 1 else 0) +
      match CopyCache.get k (pureComputeC f) c with
      | .error _ => 0
      | .ok (_, c1) => CopyCache.invocations key rest c1

/-- The message of the panic raised inside the compute closure of
get_body_with_borrowck_facts (borrowck_facts.rs line 74), with the Debug
rendering of the key spliced in. -/
def missingBodyMessage (d : String) : String :=
  "mir_borrowck override should have stored body for item: " ++ d ++
    ". Are you sure you registered borrowck_facts::override_queries?"

/-- The MIR_BODIES interaction of the mir_borrowck override
(borrowck_facts.rs lines 43 to 45): store the body computed by the
external fact extraction under the def id, via Cache get with a compute
closure returning that body, and discard the returned reference. The
rustc side (timer, fact extraction, delegation to the original provider)
is external and abstracted into the body argument. -/
def mir_borrowck {In Body : Type} [DecidableEq In] (d : In) (body : Body)
    (σ : Cache In Body) : Except Fault (Cache In Body) :=
  match Cache.get d (pureCompute fun _ => body) σ with
  | .ok (_, σ1) => .ok σ1
  | .error f => .error f

/-- The MIR_BODIES interaction of get_body_with_borrowck_facts
(borrowck_facts.rs lines 65 to 79): Cache get with a compute closure
that panics, naming the missing def id. dshow models the Debug rendering
of the def id used by the panic message. -/
def get_body_with_borrowck_facts {In Body : Type} [DecidableEq In]
    (dshow : In → String) (d : In) (σ : Cache In Body) :
    Except Fault ((Nat × Body) × Cache In Body) :=
  Cache.get d (fun _ _ => .error (.panicked (missingBodyMessage (dshow d)))) σ

theorem lookupEntry_insertEntry_self {In V : Type} [DecidableEq In]
    (es : List (In × V)) (key : In) (v : V) :
    lookupEntry (insertEntry es key v) key = some v := by
  induction es with
  | nil => simp [insertEntry, lookupEntry]
  | cons kv rest ih =>
    obtain ⟨k, w⟩ := kv
    by_cases hk : k = key
    · simp [insertEntry, lookupEntry, hk]
    · simp [insertEntry, lookupEntry, hk, ih]

theorem lookupEntry_insertEntry_ne {In V : Type} [DecidableEq In]
    (es : List (In × V)) (key other : In) (v : V) (hne : other ≠ key) :
    lookupEntry (insertEntry es key v) other = lookupEntry es other := by
  have hne' : ¬key = other := fun h => hne h.symm
  induction es with
  | nil => simp [insertEntry, lookupEntry, hne']
  | cons kv rest ih =>
    obtain ⟨k, w⟩ := kv
    by_cases hk : k = key
    · subst hk
      simp [insertEntry, lookupEntry, hne']
    · simp [insertEntry, lookupEntry, hk, ih]

theorem Cache.get_present {In Out : Type} [DecidableEq In] (key : In)
    (compute : ComputeM In Out) (c : Cache In Out) (e : Nat × Out)
    (hm : c.mutActive = false) (hl : lookupEntry c.entries key = some e) :
    Cache.get key compute c = .ok (e, c) := by
  simp [Cache.get, Cache.checkInsert, hm, hl]

theorem Cache.get_absent {In Out : Type} [DecidableEq In] (key : In)
    (compute : ComputeM In Out) (c c1 : Cache In Out) (out : Out)
    (hm : c.mutActive = false) (hl : lookupEntry c.entries key = none)
    (hc : compute key c = .ok (out, c1))
    (hm1 : c1.mutActive = false) (hr1 : c1.reads = 0) :
    Cache.get key compute c = .ok ((c1.nextSlot, out), c1.insertFresh key out) := by
  simp [Cache.get, Cache.checkInsert, hm, hl, hc, hm1, hr1, Cache.insertFresh,
    lookupEntry_insertEntry_self]

theorem Cache.get_absent_error {In Out : Type} [DecidableEq In] (key : In)
    (compute : ComputeM In Out) (c : Cache In Out) (fa : Fault)
    (hm : c.mutActive = false) (hl : lookupEntry c.entries key = none)
    (hc : compute key c = .error fa) :
    Cache.get key compute c = .error fa := by
  simp [Cache.get, Cache.checkInsert, hm, hl, hc]

theorem Cache.get_pure_absent {In Out : Type} [DecidableEq In] (key : In)
    (f : In → Out) (c : Cache In Out)
    (hm : c.mutActive = false) (hr : c.reads = 0)
    (hl : lookupEntry c.entries key = none) :
    Cache.get key (pureCompute f) c =
      .ok ((c.nextSlot, f key), c.insertFresh key (f key)) :=
  Cache.get_absent key _ c c (f key) hm hl rfl hm hr

theorem Cache.get_pure_cases {In Out : Type} [DecidableEq In] (key : In)
    (f : In → Out) (c c' : Cache In Out) (r : Nat × Out)
    (hg : Cache.get key (pureCompute f) c = .ok (r, c')) :
    c.mutActive = false ∧
      ((lookupEntry c.entries key = some r ∧ c' = c) ∨
        (lookupEntry c.entries key = none ∧ c.reads = 0 ∧
          r = (c.nextSlot, f key) ∧ c' = c.insertFresh key (f key))) := by
  by_cases hm : c.mutActive = true
  · simp [Cache.get, hm] at hg
  · have hm' : c.mutActive = false := by simpa using hm
    refine ⟨hm', ?_⟩
    cases hl : lookupEntry c.entries key with
    | some e =>
      rw [Cache.get_present key _ c e hm' hl] at hg
      simp only [Except.ok.injEq, Prod.mk.injEq] at hg
      obtain ⟨he, hc⟩ := hg
      subst he
      subst hc
      exact Or.inl ⟨rfl, rfl⟩
    | none =>
      by_cases hr : c.reads = 0
      · rw [Cache.get_pure_absent key f c hm' hr hl] at hg
        simp only [Except.ok.injEq, Prod.mk.injEq] at hg
        obtain ⟨he, hc⟩ := hg
        subst he
        subst hc
        exact Or.inr ⟨rfl, hr, rfl, rfl⟩
      · simp [Cache.get, Cache.checkInsert, hm', hl, pureCompute, hr] at hg

theorem Cache.get_pure_lookup {In Out : Type} [DecidableEq In] (key : In)
    (f : In → Out) (c c' : Cache In Out) (r : Nat × Out)
    (hg : Cache.get key (pureCompute f) c = .ok (r, c')) :
    lookupEntry c'.entries key = some r := by
  rcases Cache.get_pure_cases key f c c' r hg with ⟨-, h | h⟩
  · rw [h.2, h.1]
  · rw [h.2.2.2, h.2.2.1]
    simp [Cache.insertFresh, lookupEntry_insertEntry_self]

theorem Cache.get_pure_preserves {In Out : Type} [DecidableEq In] (key other : In)
    (f : In → Out) (c c' : Cache In Out) (r e : Nat × Out)
    (hg : Cache.get key (pureCompute f) c = .ok (r, c'))
    (he : lookupEntry c.entries other = some e) :
    lookupEntry c'.entries other = some e := by
  rcases Cache.get_pure_cases key f c c' r hg with ⟨-, h | h⟩
  · rw [h.2]; exact he
  · rw [h.2.2.2]
    have hne : other ≠ key := by
      intro hq
      rw [hq, h.1] at he
      exact Option.noConfusion he
    simpa [Cache.insertFresh, lookupEntry_insertEntry_ne _ _ _ _ hne] using he

theorem Cache.get_pure_flags {In Out : Type} [DecidableEq In] (key : In)
    (f : In → Out) (c c' : Cache In Out) (r : Nat × Out)
    (hg : Cache.get key (pureCompute f) c = .ok (r, c')) :
    c'.mutActive = c.mutActive ∧ c'.reads = c.reads := by
  rcases Cache.get_pure_cases key f c c' r hg with ⟨-, h | h⟩
  · rw [h.2]; exact ⟨rfl, rfl⟩
  · rw [h.2.2.2]; exact ⟨rfl, rfl⟩

theorem Cache.runOps_preserves {In Out : Type} [DecidableEq In]
    (ops : List (In × (In → Out))) (c c' : Cache In Out) (k : In) (e : Nat × Out)
    (h : Cache.runOps ops c = .ok c') (he : lookupEntry c.entries k = some e) :
    lookupEntry c'.entries k = some e := by
  induction ops generalizing c with
  | nil =>
    simp only [Cache.runOps, Except.ok.injEq] at h
    rw [← h]; exact he
  | cons op rest ih =>
    obtain ⟨k0, f0⟩ := op
    cases hg : Cache.get k0 (pureCompute f0) c with
    | error fa => simp [Cache.runOps, hg] at h
    | ok rc =>
      obtain ⟨r0, c1⟩ := rc
      simp only [Cache.runOps, hg] at h
      exact ih c1 h (Cache.get_pure_preserves k0 k f0 c c1 r0 e hg he)

theorem Cache.runOps_flags {In Out : Type} [DecidableEq In]
    (ops : List (In × (In → Out))) (c c' : Cache In Out)
    (h : Cache.runOps ops c = .ok c') :
    c'.mutActive = c.mutActive ∧ c'.reads = c.reads := by
  induction ops generalizing c with
  | nil =>
    simp only [Cache.runOps, Except.ok.injEq] at h
    rw [← h]; exact ⟨rfl, rfl⟩
  | cons op rest ih =>
    obtain ⟨k0, f0⟩ := op
    cases hg : Cache.get k0 (pureCompute f0) c with
    | error fa => simp [Cache.runOps, hg] at h
    | ok rc =>
      obtain ⟨r0, c1⟩ := rc
      simp only [Cache.runOps, hg] at h
      obtain ⟨h1, h2⟩ := ih c1 h
      obtain ⟨h3, h4⟩ := Cache.get_pure_flags k0 f0 c c1 r0 hg
      exact ⟨h1.trans h3, h2.trans h4⟩

theorem Cache.invocations_present {In Out : Type} [DecidableEq In] (key : In)
    (ops : List (In × (In → Out))) (c : Cache In Out)
    (hm : c.mutActive = false) (hr : c.reads = 0)
    (hp : (lookupEntry c.entries key).isSome = true) :
    Cache.invocations key ops c = 0 := by
  induction ops generalizing c with
  | nil => rfl
  | cons op rest ih =>
    obtain ⟨k, f⟩ := op
    have hcond : ¬(k = key ∧ c.mutActive = false ∧ (lookupEntry c.entries k).isNone = true) := by
      rintro ⟨hk, -, hn⟩
      rw [hk] at hn
      rw [Option.isNone_iff_eq_none.mp hn] at hp
      exact Bool.noConfusion hp
    cases hl : lookupEntry c.entries k with
    | some e =>
      rw [Cache.invocations, if_neg hcond, Cache.get_present k _ c e hm hl]
      simpa using ih c hm hr hp
    | none =>
      rw [Cache.invocations, if_neg hcond, Cache.get_pure_absent k f c hm hr hl]
      have hne : key ≠ k := by
        intro hq
        rw [hq, hl] at hp
        simp at hp
      have hp' : (lookupEntry (c.insertFresh k (f k)).entries key).isSome = true := by
        simpa [Cache.insertFresh, lookupEntry_insertEntry_ne _ _ _ _ hne] using hp
      simpa using ih (c.insertFresh k (f k)) (by simp [Cache.insertFresh, hm])
        (by simp [Cache.insertFresh, hr]) hp'

theorem ifMemConsFst {In Out : Type} [DecidableEq In] (key k : In) (f : In → Out)
    (rest : List (In × (In → Out))) (hkk : ¬key = k) :
    (if key ∈ (((k, f) :: rest).map Prod.fst) then 1 else 0 : Nat) =
      if key ∈ rest.map Prod.fst then 1 else 0 := by
  rw [List.map_cons]
  by_cases hmem : key ∈ rest.map Prod.fst
  · rw [if_pos hmem, if_pos (List.mem_cons_of_mem _ hmem)]
  · rw [if_neg hmem, if_neg]
    intro hcon
    rcases List.mem_cons.mp hcon with h | h
    · exact hkk h
    · exact hmem h

theorem Cache.invocations_absent {In Out : Type} [DecidableEq In] (key : In)
    (ops : List (In × (In → Out))) (c : Cache In Out)
    (hm : c.mutActive = false) (hr : c.reads = 0)
    (hl : lookupEntry c.entries key = none) :
    Cache.invocations key ops c = if key ∈ ops.map Prod.fst then 1 else 0 := by
  induction ops generalizing c with
  | nil => rfl
  | cons op rest ih =>
    obtain ⟨k, f⟩ := op
    by_cases hk : k = key
    · subst hk
      rw [Cache.invocations, if_pos ⟨rfl, hm, by rw [hl]; rfl⟩,
        Cache.get_pure_absent k f c hm hr hl]
      have h0 : Cache.invocations k rest (c.insertFresh k (f k)) = 0 :=
        Cache.invocations_present k rest _ (by simp [Cache.insertFresh, hm])
          (by simp [Cache.insertFresh, hr])
          (by simp [Cache.insertFresh, lookupEntry_insertEntry_self])
      simp [h0]
    · have hkk : ¬key = k := fun h => hk h.symm
      have hcond : ¬(k = key ∧ c.mutActive = false ∧ (lookupEntry c.entries k).isNone = true) :=
        fun hq => hk hq.1
      cases hlk : lookupEntry c.entries k with
      | some e =>
        rw [Cache.invocations, if_neg hcond, Cache.get_present k _ c e hm hlk,
          ifMemConsFst key k f rest hkk]
        simpa using ih c hm hr hl
      | none =>
        rw [Cache.invocations, if_neg hcond, Cache.get_pure_absent k f c hm hr hlk,
          ifMemConsFst key k f rest hkk]
        have hl' : lookupEntry (c.insertFresh k (f k)).entries key = none := by
          simpa [Cache.insertFresh, lookupEntry_insertEntry_ne _ _ _ _ hkk] using hl
        simpa using ih (c.insertFresh k (f k)) (by simp [Cache.insertFresh, hm])
          (by simp [Cache.insertFresh, hr]) hl'

theorem CopyCache.get_mutActive {In Out : Type} [DecidableEq In] (key : In)
    (compute : CopyComputeM In Out) (c : CopyCache In Out)
    (hm : c.mutActive = true) :
    CopyCache.get key compute c = .error .borrowConflict := by
  simp [CopyCache.get, hm]

theorem CopyCache.get_present_copy {In Out : Type} [DecidableEq In] (key : In)
    (compute : CopyComputeM In Out) (c : CopyCache In Out) (v : Out)
    (hm : c.mutActive = false) (hl : lookupEntry c.entries key = some v) :
    CopyCache.get key compute c = .ok (v, c) := by
  simp [CopyCache.get, hm, hl]

theorem CopyCache.get_absent_error_copy {In Out : Type} [DecidableEq In] (key : In)
    (compute : CopyComputeM In Out) (c : CopyCache In Out) (fa : Fault)
    (hm : c.mutActive = false) (hl : lookupEntry c.entries key = none)
    (hc : compute key { c with mutActive := true } = .error fa) :
    CopyCache.get key compute c = .error fa := by
  simp [CopyCache.get, hm, hl, hc]

theorem CopyCache.get_pure_absent_copy {In Out : Type} [DecidableEq In] (key : In)
    (f : In → Out) (c : CopyCache In Out)
    (hm : c.mutActive = false) (hl : lookupEntry c.entries key = none) :
    CopyCache.get key (pureComputeC f) c = .ok (f key, c.insertVal key (f key)) := by
  obtain ⟨es, m⟩ := c
  simp only at hm
  subst hm
  simp [CopyCache.get, pureComputeC, CopyCache.insertVal, hl]

theorem CopyCache.get_pure_cases_copy {In Out : Type} [DecidableEq In] (key : In)
    (f : In → Out) (c c' : CopyCache In Out) (v : Out)
    (hg : CopyCache.get key (pureComputeC f) c = .ok (v, c')) :
    c.mutActive = false ∧
      ((lookupEntry c.entries key = some v ∧ c' = c) ∨
        (lookupEntry c.entries key = none ∧ v = f key ∧ c' = c.insertVal key (f key))) := by
  by_cases hm : c.mutActive = true
  · rw [CopyCache.get_mutActive key _ c hm] at hg
    exact Except.noConfusion hg
  · have hm' : c.mutActive = false := by simpa using hm
    refine ⟨hm', ?_⟩
    cases hl : lookupEntry c.entries key with
    | some w =>
      rw [CopyCache.get_present_copy key _ c w hm' hl] at hg
      simp only [Except.ok.injEq, Prod.mk.injEq] at hg
      obtain ⟨he, hc⟩ := hg
      subst he
      subst hc
      exact Or.inl ⟨rfl, rfl⟩
    | none =>
      rw [CopyCache.get_pure_absent_copy key f c hm' hl] at hg
      simp only [Except.ok.injEq, Prod.mk.injEq] at hg
      obtain ⟨he, hc⟩ := hg
      subst he
      subst hc
      exact Or.inr ⟨rfl, rfl, rfl⟩

theorem CopyCache.get_pure_preserves_copy {In Out : Type} [DecidableEq In] (key other : In)
    (f : In → Out) (c c' : CopyCache In Out) (v w : Out)
    (hg : CopyCache.get key (pureComputeC f) c = .ok (v, c'))
    (he : lookupEntry c.entries other = some w) :
    lookupEntry c'.entries other = some w := by
  rcases CopyCache.get_pure_cases_copy key f c c' v hg with ⟨-, h | h⟩
  · rw [h.2]; exact he
  · rw [h.2.2]
    have hne : other ≠ key := by
      intro hq
      rw [hq, h.1] at he
      exact Option.noConfusion he
    simpa [CopyCache.insertVal, lookupEntry_insertEntry_ne _ _ _ _ hne] using he

theorem CopyCache.get_pure_flags_copy {In Out : Type} [DecidableEq In] (key : In)
    (f : In → Out) (c c' : CopyCache In Out) (v : Out)
    (hg : CopyCache.get key (pureComputeC f) c = .ok (v, c')) :
    c'.mutActive = c.mutActive := by
  rcases CopyCache.get_pure_cases_copy key f c c' v hg with ⟨-, h | h⟩
  · rw [h.2]
  · rw [h.2.2]; rfl

theorem CopyCache.runOps_preserves_copy {In Out : Type} [DecidableEq In]
    (ops : List (In × (In → Out))) (c c' : CopyCache In Out) (k : In) (w : Out)
    (h : CopyCache.runOps ops c = .ok c') (he : lookupEntry c.entries k = some w) :
    lookupEntry c'.entries k = some w := by
  induction ops generalizing c with
  | nil =>
    simp only [CopyCache.runOps, Except.ok.injEq] at h
    rw [← h]; exact he
  | cons op rest ih =>
    obtain ⟨k0, f0⟩ := op
    cases hg : CopyCache.get k0 (pureComputeC f0) c with
    | error fa => simp [CopyCache.runOps, hg] at h
    | ok rc =>
      obtain ⟨r0, c1⟩ := rc
      simp only [CopyCache.runOps, hg] at h
      exact ih c1 h (CopyCache.get_pure_preserves_copy k0 k f0 c c1 r0 w hg he)

theorem CopyCache.invocations_present_copy {In Out : Type} [DecidableEq In] (key : In)
    (ops : List (In × (In → Out))) (c : CopyCache In Out)
    (hm : c.mutActive = false)
    (hp : (lookupEntry c.entries key).isSome = true) :
    CopyCache.invocations key ops c = 0 := by
  induction ops generalizing c with
  | nil => rfl
  | cons op rest ih =>
    obtain ⟨k, f⟩ := op
    have hcond : ¬(k = key ∧ c.mutActive = false ∧ (lookupEntry c.entries k).isNone = true) := by
      rintro ⟨hk, -, hn⟩
      rw [hk] at hn
      rw [Option.isNone_iff_eq_none.mp hn] at hp
      exact Bool.noConfusion hp
    cases hl : lookupEntry c.entries k with
    | some v =>
      rw [CopyCache.invocations, if_neg hcond, CopyCache.get_present_copy k _ c v hm hl]
      simpa using ih c hm hp
    | none =>
      rw [CopyCache.invocations, if_neg hcond, CopyCache.get_pure_absent_copy k f c hm hl]
      have hne : key ≠ k := by
        intro hq
        rw [hq, hl] at hp
        simp at hp
      have hp' : (lookupEntry (c.insertVal k (f k)).entries key).isSome = true := by
        simpa [CopyCache.insertVal, lookupEntry_insertEntry_ne _ _ _ _ hne] using hp
      simpa using ih (c.insertVal k (f k)) (by simp [CopyCache.insertVal, hm]) hp'

theorem CopyCache.invocations_absent_copy {In Out : Type} [DecidableEq In] (key : In)
    (ops : List (In × (In → Out))) (c : CopyCache In Out)
    (hm : c.mutActive = false)
    (hl : lookupEntry c.entries key = none) :
    CopyCache.invocations key ops c = if key ∈ ops.map Prod.fst then 1 else 0 := by
  induction ops generalizing c with
  | nil => rfl
  | cons op rest ih =>
    obtain ⟨k, f⟩ := op
    by_cases hk : k = key
    · subst hk
      rw [CopyCache.invocations, if_pos ⟨rfl, hm, by rw [hl]; rfl⟩,
        CopyCache.get_pure_absent_copy k f c hm hl]
      have h0 : CopyCache.invocations k rest (c.insertVal k (f k)) = 0 :=
        CopyCache.invocations_present_copy k rest _ (by simp [CopyCache.insertVal, hm])
          (by simp [CopyCache.insertVal, lookupEntry_insertEntry_self])
      simp [h0]
    · have hkk : ¬key = k := fun h => hk h.symm
      have hcond : ¬(k = key ∧ c.mutActive = false ∧ (lookupEntry c.entries k).isNone = true) :=
        fun hq => hk hq.1
      cases hlk : lookupEntry c.entries k with
      | some v =>
        rw [CopyCache.invocations, if_neg hcond, CopyCache.get_present_copy k _ c v hm hlk,
          ifMemConsFst key k f rest hkk]
        simpa using ih c hm hl
      | none =>
        rw [CopyCache.invocations, if_neg hcond, CopyCache.get_pure_absent_copy k f c hm hlk,
          ifMemConsFst key k f rest hkk]
        have hl' : lookupEntry (c.insertVal k (f k)).entries key = none := by
          simpa [CopyCache.insertVal, lookupEntry_insertEntry_ne _ _ _ _ hkk] using hl
        simpa using ih (c.insertVal k (f k)) (by simp [CopyCache.insertVal, hm]) hl'

/-- A compute closure for key 0 that re-enters get on the same Cache with
the same key 0 (the inner call uses a pure compute returning 7) and hands
back 100 plus the value the inner call returned. Models the forbidden
same-key re-entrant usage of Cache get. -/
def reentrantSameKey : ComputeM Nat Nat := fun _ c =>
  match Cache.get 0 (pureCompute fun _ => 7) c with
  | .ok (sv, c1) => .ok (100 + sv.2, c1)
  | .error fa => .error fa

/-- A compute closure that re-enters get on the same Cache with key k2
(pure compute g there) and combines the inner value with mix. -/
def reentrantOther {In Out : Type} [DecidableEq In] (k2 : In) (g : In → Out)
    (mix : Out → Out) : ComputeM In Out := fun _ c0 =>
  match Cache.get k2 (pureCompute g) c0 with
  | .ok (sv, c1) => .ok (mix sv.2, c1)
  | .error fa => .error fa

/-- A compute closure that re-enters get on the same CopyCache with key
k2 (pure compute g there) and combines the inner value with mix. -/
def reentrantCopy {In Out : Type} [DecidableEq In] (k2 : In) (g : In → Out)
    (mix : Out → Out) : CopyComputeM In Out := fun _ c0 =>
  match CopyCache.get k2 (pureComputeC g) c0 with
  | .ok (v, c1) => .ok (mix v, c1)
  | .error fa => .error fa

/-- C1: first writer wins, idempotent by key. On either cache variant,
from any state with no active borrow in which key K is absent, get with
compute f stores and returns the result of f, and a subsequent get with
an arbitrary different compute g returns the stored result of f again,
leaving the state unchanged: the result is independent of g, so g is
never invoked and its result is never returned. -/
theorem first_writer_wins {In Out : Type} [DecidableEq In] (K : In) (f g : In → Out)
    (c : Cache In Out) (cc : CopyCache In Out)
    (hm : c.mutActive = false) (hr : c.reads = 0)
    (hl : lookupEntry c.entries K = none)
    (hmc : cc.mutActive = false) (hlc : lookupEntry cc.entries K = none) :
    (Cache.get K (pureCompute f) c = .ok ((c.nextSlot, f K), c.insertFresh K (f K)) ∧
      Cache.get K (pureCompute g) (c.insertFresh K (f K)) =
        .ok ((c.nextSlot, f K), c.insertFresh K (f K))) ∧
    (CopyCache.get K (pureComputeC f) cc = .ok (f K, cc.insertVal K (f K)) ∧
      CopyCache.get K (pureComputeC g) (cc.insertVal K (f K)) =
        .ok (f K, cc.insertVal K (f K))) := by
  refine ⟨⟨Cache.get_pure_absent K f c hm hr hl, ?_⟩,
    CopyCache.get_pure_absent_copy K f cc hmc hlc, ?_⟩
  · exact Cache.get_present K _ _ (c.nextSlot, f K) (by simp [Cache.insertFresh, hm])
      (by simp [Cache.insertFresh, lookupEntry_insertEntry_self])
  · exact CopyCache.get_present_copy K _ _ (f K) (by simp [CopyCache.insertVal, hmc])
      (by simp [CopyCache.insertVal, lookupEntry_insertEntry_self])

theorem first_writer_wins_witness :
    (Cache.empty : Cache Nat Nat).mutActive = false ∧
    (Cache.empty : Cache Nat Nat).reads = 0 ∧
    lookupEntry (Cache.empty : Cache Nat Nat).entries 5 = none ∧
    (CopyCache.empty : CopyCache Nat Nat).mutActive = false ∧
    lookupEntry (CopyCache.empty : CopyCache Nat Nat).entries 5 = none ∧
    ((Cache.get 5 (pureCompute fun _ => 6) Cache.empty =
        .ok ((0, 6), Cache.insertFresh Cache.empty 5 6) ∧
      Cache.get 5 (pureCompute fun _ => 9) (Cache.insertFresh Cache.empty 5 6) =
        .ok ((0, 6), Cache.insertFresh Cache.empty 5 6)) ∧
      (CopyCache.get 5 (pureComputeC fun _ => 6) CopyCache.empty =
        .ok (6, CopyCache.insertVal CopyCache.empty 5 6) ∧
      CopyCache.get 5 (pureComputeC fun _ => 9) (CopyCache.insertVal CopyCache.empty 5 6) =
        .ok (6, CopyCache.insertVal CopyCache.empty 5 6))) :=
  ⟨rfl, rfl, rfl, rfl, rfl,
    first_writer_wins 5 (fun _ => 6) (fun _ => 9) Cache.empty CopyCache.empty
      rfl rfl rfl rfl rfl⟩

/-- C2: compute count. For either variant, starting from a fresh cache,
along any sequence of get calls with pure compute closures that mentions
key K at least once, the compute closures supplied for K run exactly once
in total; and whenever K is already present (in any state with no write
borrow active) a get for K returns the stored entry unchanged for every
compute closure whatsoever, so no compute runs for a present key. -/
theorem compute_once_per_key {In Out : Type} [DecidableEq In] (K : In)
    (ops : List (In × (In → Out)))
    (comp : ComputeM In Out) (compC : CopyComputeM In Out)
    (c0 : Cache In Out) (cc0 : CopyCache In Out) (e : Nat × Out) (v : Out)
    (hK : K ∈ ops.map Prod.fst)
    (hm0 : c0.mutActive = false) (he0 : lookupEntry c0.entries K = some e)
    (hmc : cc0.mutActive = false) (hvc : lookupEntry cc0.entries K = some v) :
    Cache.invocations K ops Cache.empty = 1 ∧
    CopyCache.invocations K ops CopyCache.empty = 1 ∧
    Cache.get K comp c0 = .ok (e, c0) ∧
    CopyCache.get K compC cc0 = .ok (v, cc0) := by
  refine ⟨?_, ?_, Cache.get_present K comp c0 e hm0 he0,
    CopyCache.get_present_copy K compC cc0 v hmc hvc⟩
  · rw [Cache.invocations_absent K ops Cache.empty rfl rfl rfl, if_pos hK]
  · rw [CopyCache.invocations_absent_copy K ops CopyCache.empty rfl rfl, if_pos hK]

theorem compute_once_per_key_witness :
    (0 : Nat) ∈ ([(0, fun _ => 5), (1, fun _ => 6), (0, fun _ => 7)] :
        List (Nat × (Nat → Nat))).map Prod.fst ∧
    (⟨[(0, 0, 42)], 1, 0, false⟩ : Cache Nat Nat).mutActive = false ∧
    lookupEntry (⟨[(0, 0, 42)], 1, 0, false⟩ : Cache Nat Nat).entries 0 = some (0, 42) ∧
    (⟨[(0, 42)], false⟩ : CopyCache Nat Nat).mutActive = false ∧
    lookupEntry (⟨[(0, 42)], false⟩ : CopyCache Nat Nat).entries 0 = some 42 ∧
    (Cache.invocations 0 ([(0, fun _ => 5), (1, fun _ => 6), (0, fun _ => 7)] :
        List (Nat × (Nat → Nat))) Cache.empty = 1 ∧
      CopyCache.invocations 0 ([(0, fun _ => 5), (1, fun _ => 6), (0, fun _ => 7)] :
        List (Nat × (Nat → Nat))) CopyCache.empty = 1 ∧
      Cache.get 0 (pureCompute fun _ => 3) (⟨[(0, 0, 42)], 1, 0, false⟩ : Cache Nat Nat) =
        .ok ((0, 42), ⟨[(0, 0, 42)], 1, 0, false⟩) ∧
      CopyCache.get 0 (pureComputeC fun _ => 3) (⟨[(0, 42)], false⟩ : CopyCache Nat Nat) =
        .ok (42, ⟨[(0, 42)], false⟩)) :=
  ⟨by decide, rfl, rfl, rfl, rfl,
    compute_once_per_key 0 _ (pureCompute fun _ => 3) (pureComputeC fun _ => 3)
      _ _ (0, 42) 42 (by decide) rfl rfl rfl rfl⟩

/-- C3, evaluated at the failing input. The claim says a compute closure
for key K that re-enters get for the same K on the same Cache triggers
the RefCell fail-fast fault. The code does not fault: no borrow of the
RefCell is held while compute runs, so the inner call computes and
inserts a pinned slot for key 0 (slot 0, value 7), and the outer call
then inserts again under key 0, replacing that entry with a new slot
(slot 1, value 107) and returning normally. The overwrite drops the
pinned box of slot 0 even though the cache is still alive, contradicting
the SAFETY comment in cache.rs lines 26 to 28. -/
theorem reentrant_same_key_overwrites :
    Cache.get 0 reentrantSameKey (Cache.empty : Cache Nat Nat) =
      .ok ((1, 107), ⟨[(0, 1, 107)], 2, 0, false⟩) := rfl

/-- C4: monotonicity. For either variant, along any successful sequence
of get calls with pure compute closures, an entry present at the start
(its slot and its value) is still present and unchanged at the end:
nothing is ever removed or overwritten, whatever compute functions the
later calls carry. -/
theorem monotonic_entries {In Out : Type} [DecidableEq In]
    (ops : List (In × (In → Out)))
    (c c' : Cache In Out) (cc cc' : CopyCache In Out) (K : In) (e : Nat × Out) (v : Out)
    (h1 : Cache.runOps ops c = .ok c') (he : lookupEntry c.entries K = some e)
    (h2 : CopyCache.runOps ops cc = .ok cc') (hv : lookupEntry cc.entries K = some v) :
    lookupEntry c'.entries K = some e ∧ lookupEntry cc'.entries K = some v :=
  ⟨Cache.runOps_preserves ops c c' K e h1 he,
    CopyCache.runOps_preserves_copy ops cc cc' K v h2 hv⟩

theorem monotonic_entries_witness :
    Cache.runOps ([(1, fun _ => 8), (0, fun _ => 9)] : List (Nat × (Nat → Nat)))
        (⟨[(0, 0, 42)], 1, 0, false⟩ : Cache Nat Nat) =
      .ok ⟨[(0, 0, 42), (1, 1, 8)], 2, 0, false⟩ ∧
    lookupEntry (⟨[(0, 0, 42)], 1, 0, false⟩ : Cache Nat Nat).entries 0 = some (0, 42) ∧
    CopyCache.runOps ([(1, fun _ => 8), (0, fun _ => 9)] : List (Nat × (Nat → Nat)))
        (⟨[(0, 42)], false⟩ : CopyCache Nat Nat) =
      .ok ⟨[(0, 42), (1, 8)], false⟩ ∧
    lookupEntry (⟨[(0, 42)], false⟩ : CopyCache Nat Nat).entries 0 = some 42 ∧
    (lookupEntry (⟨[(0, 0, 42), (1, 1, 8)], 2, 0, false⟩ : Cache Nat Nat).entries 0 =
        some (0, 42) ∧
      lookupEntry (⟨[(0, 42), (1, 8)], false⟩ : CopyCache Nat Nat).entries 0 = some 42) :=
  ⟨rfl, rfl, rfl, rfl,
    monotonic_entries [(1, fun _ => 8), (0, fun _ => 9)]
      ⟨[(0, 0, 42)], 1, 0, false⟩ ⟨[(0, 0, 42), (1, 1, 8)], 2, 0, false⟩
      ⟨[(0, 42)], false⟩ ⟨[(0, 42), (1, 8)], false⟩ 0 (0, 42) 42 rfl rfl rfl rfl⟩

/-- C5: reference identity and address stability. On a Cache, once a get
for K has returned slot s with value v, a second get for K with any pure
compute returns the same slot s and the same value and leaves the state
untouched; after any further successful sequence of get calls the entry
for K still carries slot s and value v, and a get for K in that later
state still returns the identical slot s. Slot identifiers model the
addresses of the pinned boxes, which are allocated once and never moved. -/
theorem stable_reference_identity {In Out : Type} [DecidableEq In] (K : In)
    (f g p : In → Out) (ops : List (In × (In → Out)))
    (c c1 c2 : Cache In Out) (s : Nat) (v : Out)
    (hg1 : Cache.get K (pureCompute f) c = .ok ((s, v), c1))
    (hrun : Cache.runOps ops c1 = .ok c2) :
    Cache.get K (pureCompute g) c1 = .ok ((s, v), c1) ∧
    lookupEntry c2.entries K = some (s, v) ∧
    Cache.get K (pureCompute p) c2 = .ok ((s, v), c2) := by
  have hlook : lookupEntry c1.entries K = some (s, v) :=
    Cache.get_pure_lookup K f c c1 (s, v) hg1
  have hmc : c.mutActive = false := by
    have h := (Cache.get_pure_cases K f c c1 (s, v) hg1).1
    exact h
  have hm1 : c1.mutActive = false := by
    rw [(Cache.get_pure_flags K f c c1 (s, v) hg1).1, hmc]
  have hstay : lookupEntry c2.entries K = some (s, v) :=
    Cache.runOps_preserves ops c1 c2 K (s, v) hrun hlook
  have hm2 : c2.mutActive = false := by
    rw [(Cache.runOps_flags ops c1 c2 hrun).1, hm1]
  exact ⟨Cache.get_present K _ c1 (s, v) hm1 hlook, hstay,
    Cache.get_present K _ c2 (s, v) hm2 hstay⟩

theorem stable_reference_identity_witness :
    Cache.get 0 (pureCompute fun _ => 4) (Cache.empty : Cache Nat Nat) =
      .ok ((0, 4), ⟨[(0, 0, 4)], 1, 0, false⟩) ∧
    Cache.runOps ([(1, fun _ => 5)] : List (Nat × (Nat → Nat)))
        (⟨[(0, 0, 4)], 1, 0, false⟩ : Cache Nat Nat) =
      .ok ⟨[(0, 0, 4), (1, 1, 5)], 2, 0, false⟩ ∧
    (Cache.get 0 (pureCompute fun _ => 8) (⟨[(0, 0, 4)], 1, 0, false⟩ : Cache Nat Nat) =
        .ok ((0, 4), ⟨[(0, 0, 4)], 1, 0, false⟩) ∧
      lookupEntry (⟨[(0, 0, 4), (1, 1, 5)], 2, 0, false⟩ : Cache Nat Nat).entries 0 =
        some (0, 4) ∧
      Cache.get 0 (pureCompute fun _ => 9)
          (⟨[(0, 0, 4), (1, 1, 5)], 2, 0, false⟩ : Cache Nat Nat) =
        .ok ((0, 4), ⟨[(0, 0, 4), (1, 1, 5)], 2, 0, false⟩)) :=
  ⟨rfl, rfl,
    stable_reference_identity 0 (fun _ => 4) (fun _ => 8) (fun _ => 9)
      [(1, fun _ => 5)] Cache.empty ⟨[(0, 0, 4)], 1, 0, false⟩
      ⟨[(0, 0, 4), (1, 1, 5)], 2, 0, false⟩ 0 4 rfl rfl⟩

/-- C6: non-invalidation, frame property. On a Cache, after a get for K1
has returned slot s with value v, a subsequent successful get for a
different key K2 with a pure compute leaves the entry for K1 untouched:
it still holds the identical slot s with the unchanged value v, so the
earlier reference stays valid and unchanged. -/
theorem non_invalidation {In Out : Type} [DecidableEq In] (K1 K2 : In)
    (f g : In → Out) (c c1 c2 : Cache In Out) (s : Nat) (v : Out) (r2 : Nat × Out)
    (hne : K2 ≠ K1)
    (hg1 : Cache.get K1 (pureCompute f) c = .ok ((s, v), c1))
    (hg2 : Cache.get K2 (pureCompute g) c1 = .ok (r2, c2)) :
    lookupEntry c2.entries K1 = some (s, v) :=
  Cache.get_pure_preserves K2 K1 g c1 c2 r2 (s, v) hg2
    (Cache.get_pure_lookup K1 f c c1 (s, v) hg1)

theorem non_invalidation_witness :
    (1 : Nat) ≠ 0 ∧
    Cache.get 0 (pureCompute fun _ => 4) (Cache.empty : Cache Nat Nat) =
      .ok ((0, 4), ⟨[(0, 0, 4)], 1, 0, false⟩) ∧
    Cache.get 1 (pureCompute fun _ => 5) (⟨[(0, 0, 4)], 1, 0, false⟩ : Cache Nat Nat) =
      .ok ((1, 5), ⟨[(0, 0, 4), (1, 1, 5)], 2, 0, false⟩) ∧
    lookupEntry (⟨[(0, 0, 4), (1, 1, 5)], 2, 0, false⟩ : Cache Nat Nat).entries 0 =
      some (0, 4) :=
  ⟨by decide, rfl, rfl,
    non_invalidation 0 1 (fun _ => 4) (fun _ => 5) Cache.empty
      ⟨[(0, 0, 4)], 1, 0, false⟩ ⟨[(0, 0, 4), (1, 1, 5)], 2, 0, false⟩ 0 4 (1, 5)
      (by decide) rfl rfl⟩

/-- C7: the borrow-check facts bridge. From a state with no active borrow
in which the def id d was never populated, retrieving via
get_body_with_borrowck_facts fails fast with the panic whose message
names the missing def id (through its Debug rendering dshow d); and
populating via the mir_borrowck override with the body f d and then
retrieving returns exactly f d. -/
theorem borrowck_facts_contract {In Body : Type} [DecidableEq In]
    (dshow : In → String) (d : In) (f : In → Body) (σ : Cache In Body)
    (hm : σ.mutActive = false) (hr : σ.reads = 0)
    (hl : lookupEntry σ.entries d = none) :
    get_body_with_borrowck_facts dshow d σ =
      .error (.panicked (missingBodyMessage (dshow d))) ∧
    mir_borrowck d (f d) σ = .ok (σ.insertFresh d (f d)) ∧
    get_body_with_borrowck_facts dshow d (σ.insertFresh d (f d)) =
      .ok ((σ.nextSlot, f d), σ.insertFresh d (f d)) := by
  refine ⟨?_, ?_, ?_⟩
  · exact Cache.get_absent_error d _ σ _ hm hl rfl
  · simp only [mir_borrowck, Cache.get_pure_absent d (fun _ => f d) σ hm hr hl]
  · exact Cache.get_present d _ _ (σ.nextSlot, f d) (by simp [Cache.insertFresh, hm])
      (by simp [Cache.insertFresh, lookupEntry_insertEntry_self])

theorem borrowck_facts_contract_witness :
    (Cache.empty : Cache Nat Nat).mutActive = false ∧
    (Cache.empty : Cache Nat Nat).reads = 0 ∧
    lookupEntry (Cache.empty : Cache Nat Nat).entries 3 = none ∧
    (get_body_with_borrowck_facts toString 3 (Cache.empty : Cache Nat Nat) =
        .error (.panicked (missingBodyMessage (toString 3))) ∧
      mir_borrowck 3 11 (Cache.empty : Cache Nat Nat) =
        .ok (Cache.insertFresh Cache.empty 3 11) ∧
      get_body_with_borrowck_facts toString 3 (Cache.insertFresh Cache.empty 3 11) =
        .ok ((0, 11), Cache.insertFresh Cache.empty 3 11)) :=
  ⟨rfl, rfl, rfl,
    borrowck_facts_contract toString 3 (fun _ => 11) Cache.empty rfl rfl rfl⟩

/-- C8: concrete scenario A. On a fresh Cache over Nat, get 0 with a
compute returning 0 yields value 0 in slot 0; get 1 with a compute
returning 1 yields value 1 in slot 1; get 0 with a compute returning 2
yields value 0 again, not 2, in the identical slot 0 as the first call,
and leaves the state untouched. -/
theorem concrete_scenario_a :
    Cache.get 0 (pureCompute fun _ => 0) (Cache.empty : Cache Nat Nat) =
      .ok ((0, 0), ⟨[(0, 0, 0)], 1, 0, false⟩) ∧
    Cache.get 1 (pureCompute fun _ => 1) (⟨[(0, 0, 0)], 1, 0, false⟩ : Cache Nat Nat) =
      .ok ((1, 1), ⟨[(0, 0, 0), (1, 1, 1)], 2, 0, false⟩) ∧
    Cache.get 0 (pureCompute fun _ => 2)
        (⟨[(0, 0, 0), (1, 1, 1)], 2, 0, false⟩ : Cache Nat Nat) =
      .ok ((0, 0), ⟨[(0, 0, 0), (1, 1, 1)], 2, 0, false⟩) := by
  exact ⟨rfl, rfl, rfl⟩

/-- C9: in Cache get the presence-check borrow is released before compute
runs, so a compute closure for k1 that re-enters get on the same Cache
with a different, non-pending key k2 completes without any borrow fault:
the inner call inserts k2, the outer call inserts k1, and both keys end
up present with their respective values. -/
theorem reentrant_distinct_key_ok {In Out : Type} [DecidableEq In] (k1 k2 : In)
    (g : In → Out) (mix : Out → Out) (c : Cache In Out)
    (hne : k2 ≠ k1) (hm : c.mutActive = false) (hr : c.reads = 0)
    (h1 : lookupEntry c.entries k1 = none) (h2 : lookupEntry c.entries k2 = none) :
    Cache.get k1 (reentrantOther k2 g mix) c =
      .ok (((c.insertFresh k2 (g k2)).nextSlot, mix (g k2)),
        (c.insertFresh k2 (g k2)).insertFresh k1 (mix (g k2))) ∧
    lookupEntry ((c.insertFresh k2 (g k2)).insertFresh k1 (mix (g k2))).entries k1 =
      some (c.nextSlot + 1, mix (g k2)) ∧
    lookupEntry ((c.insertFresh k2 (g k2)).insertFresh k1 (mix (g k2))).entries k2 =
      some (c.nextSlot, g k2) := by
  have hcomp : reentrantOther k2 g mix k1 c =
      .ok (mix (g k2), c.insertFresh k2 (g k2)) := by
    simp only [reentrantOther, Cache.get_pure_absent k2 g c hm hr h2]
  refine ⟨Cache.get_absent k1 _ c (c.insertFresh k2 (g k2)) (mix (g k2)) hm h1 hcomp
      (by simp [Cache.insertFresh, hm]) (by simp [Cache.insertFresh, hr]), ?_, ?_⟩
  · simp [Cache.insertFresh, lookupEntry_insertEntry_self]
  · simp [Cache.insertFresh, lookupEntry_insertEntry_ne _ _ _ _ hne,
      lookupEntry_insertEntry_self]

theorem reentrant_distinct_key_ok_witness :
    (0 : Nat) ≠ 1 ∧
    (Cache.empty : Cache Nat Nat).mutActive = false ∧
    (Cache.empty : Cache Nat Nat).reads = 0 ∧
    lookupEntry (Cache.empty : Cache Nat Nat).entries 1 = none ∧
    lookupEntry (Cache.empty : Cache Nat Nat).entries 0 = none ∧
    (Cache.get 1 (reentrantOther 0 (fun _ => 7) (fun v => v + 100))
        (Cache.empty : Cache Nat Nat) =
      .ok ((1, 107), Cache.insertFresh (Cache.insertFresh Cache.empty 0 7) 1 107) ∧
      lookupEntry (Cache.insertFresh (Cache.insertFresh Cache.empty 0 7) 1 107).entries 1 =
        some (1, 107) ∧
      lookupEntry (Cache.insertFresh (Cache.insertFresh Cache.empty 0 7) 1 107).entries 0 =
        some (0, 7)) :=
  ⟨by decide, rfl, rfl, rfl, rfl,
    reentrant_distinct_key_ok 1 0 (fun _ => 7) (fun v => v + 100) Cache.empty
      (by decide) rfl rfl rfl rfl⟩

/-- C10: in CopyCache get the write borrow is held for the whole call, in
particular while compute runs inside or_insert_with; therefore a compute
closure for an absent key k1 that re-enters get on the same CopyCache
with any key k2, equal to or different from k1, hits the fail-fast
borrow fault, and the whole call reports it. -/
theorem copycache_reentrant_faults {In Out : Type} [DecidableEq In] (k1 k2 : In)
    (g : In → Out) (mix : Out → Out) (c : CopyCache In Out)
    (hm : c.mutActive = false) (h1 : lookupEntry c.entries k1 = none) :
    CopyCache.get k1 (reentrantCopy k2 g mix) c = .error .borrowConflict := by
  apply CopyCache.get_absent_error_copy k1 _ c _ hm h1
  simp only [reentrantCopy,
    CopyCache.get_mutActive k2 (pureComputeC g) { c with mutActive := true } rfl]

theorem copycache_reentrant_faults_witness :
    (CopyCache.empty : CopyCache Nat Nat).mutActive = false ∧
    lookupEntry (CopyCache.empty : CopyCache Nat Nat).entries 0 = none ∧
    CopyCache.get 0 (reentrantCopy 0 (fun _ => 1) (fun v => v))
        (CopyCache.empty : CopyCache Nat Nat) =
      .error .borrowConflict :=
  ⟨rfl, rfl,
    copycache_reentrant_faults 0 0 (fun _ => 1) (fun v => v) CopyCache.empty rfl rfl⟩

end RustcUtils
